import Mathlib

/-!
Verification of the AndersonAcceleration class found in
src/SurfaceMeshProcessing/include/algorithm/AndersonAcceleration.hpp.

Modelling decisions.  Scalars are rational numbers, idealizing the exact
field arithmetic that the double precision code approximates.  Vectors and
matrices are total functions on natural number indices; all reads performed
by the code are restricted to the index ranges the code actually touches,
so entries outside those ranges play the role of the uninitialized storage
left behind by Eigen resize calls.  The two operations that the class takes
from the Eigen library and that are not part of this translation unit, the
square root inside norm computations and the complete orthogonal
decomposition least squares solve, are passed in as explicit function
parameters sq and solve; every theorem that needs a semantic property of
one of them states that property as a hypothesis.  The four int members are
integers, so the sentinel value minus one stored by the default constructor
is representable, and the assert on iter in compute is modelled by
returning an Option, with none standing for the failed assertion.
-/

set_option autoImplicit false

namespace AA

/-- The epsilon constant used by compute, 1e-14 in the source. -/
def eps : ℚ := 1 / 10 ^ 14

/-- Dot product of the first d entries of two coordinate functions, the
Eigen dot, squaredNorm and matrix product building block. -/
def dot (d : ℕ) (f g : ℕ → ℚ) : ℚ := ∑ i ∈ Finset.range d, f i * g i

/-- State of one AndersonAcceleration object: the seven buffers and the
four int members of the class. -/
structure AndersonAcceleration where
  current_u : ℕ → ℚ
  current_F : ℕ → ℚ
  prev_dG : ℕ → ℕ → ℚ
  prev_dF : ℕ → ℕ → ℚ
  M : ℕ → ℕ → ℚ
  theta : ℕ → ℚ
  dF_scale : ℕ → ℚ
  m : ℤ
  dim : ℤ
  iter : ℤ
  col_idx : ℤ

/-- The default constructor: the four int members are set to minus one and
the buffers are default constructed, hence carry no meaningful contents;
they are taken as parameters. -/
def mkAA (u F : ℕ → ℚ) (dG dF Mg : ℕ → ℕ → ℚ) (th sc : ℕ → ℚ) :
    AndersonAcceleration :=
  ⟨u, F, dG, dF, Mg, th, sc, -1, -1, -1, -1⟩

/-- The replace member: overwrite the current iterate, touch nothing else.
The source performs no precondition check of its own here; this plain form
is the exact behavior on every initialized object, where the copy spans
the dim entries of the iterate. -/
def replace (s : AndersonAcceleration) (u : ℕ → ℚ) : AndersonAcceleration :=
  { s with current_u := u }

/-- Modelled from the spec: the vector copy inside replace runs through the
linear algebra library Map constructor, code outside this translation unit,
which asserts that the mapped size is nonnegative and fails fast when the
object still carries the sentinel size minus one left by the default
constructor; the spec classifies such pre init misuse as a fatal
assertion rather than a recoverable error.  none models that failed
library assertion; on any object with a nonnegative size the copy succeeds
and coincides with replace. -/
def replaceChecked (s : AndersonAcceleration) (u : ℕ → ℚ) :
    Option AndersonAcceleration :=
  if 0 ≤ s.dim then some (replace s u) else none

/-- The init member: record m and d, set the current iterate to u0, reset
the counters.  The Eigen resize calls leave the freshly sized buffers with
unspecified contents, which the model represents by keeping whatever
functions were stored before, quantifying over them in the theorems. -/
def init (m d : ℤ) (u0 : ℕ → ℚ) (s : AndersonAcceleration) :
    AndersonAcceleration :=
  { s with m := m, dim := d, current_u := u0, iter := 0, col_idx := 0 }

/-- The residual F = G - current_u computed at the top of compute. -/
def residual (s : AndersonAcceleration) (g : ℕ → ℚ) : ℕ → ℚ :=
  fun i => g i - s.current_u i

/-- The history column at col_idx after the increment prev_dF += F that
finalizes the seed into a true residual increment. -/
def finalizedDF (s : AndersonAcceleration) (g : ℕ → ℚ) : ℕ → ℚ :=
  fun i => s.prev_dF i s.col_idx.toNat + residual s g i

/-- The history column at col_idx after the increment prev_dG += G. -/
def finalizedDG (s : AndersonAcceleration) (g : ℕ → ℚ) : ℕ → ℚ :=
  fun i => s.prev_dG i s.col_idx.toNat + g i

/-- The clamped scale max(eps, norm of the finalized column); the norm is
the square root, via the parameter sq, of the squared norm. -/
def colScale (sq : ℚ → ℚ) (s : AndersonAcceleration) (g : ℕ → ℚ) : ℚ :=
  max eps (sq (dot s.dim.toNat (finalizedDF s g) (finalizedDF s g)))

/-- The prev_dF matrix after the in place division of column col_idx by
the clamped scale. -/
def normalizedDF (sq : ℚ → ℚ) (s : AndersonAcceleration) (g : ℕ → ℚ) :
    ℕ → ℕ → ℚ :=
  fun i j =>
    if j = s.col_idx.toNat then finalizedDF s g i / colScale sq s g
    else s.prev_dF i j

/-- The prev_dG matrix after the finalization of column col_idx. -/
def updatedDG (s : AndersonAcceleration) (g : ℕ → ℚ) : ℕ → ℕ → ℚ :=
  fun i j => if j = s.col_idx.toNat then finalizedDG s g i else s.prev_dG i j

/-- The dF_scale vector after storing the clamped scale at col_idx. -/
def updatedScale (sq : ℚ → ℚ) (s : AndersonAcceleration) (g : ℕ → ℚ) :
    ℕ → ℚ :=
  fun j => if j = s.col_idx.toNat then colScale sq s g else s.dF_scale j

/-- The number of valid history columns, min of m and the iteration count. -/
def m_k (s : AndersonAcceleration) : ℤ := min s.m s.iter

/-- The normalized column at col_idx, as read after the in place division. -/
def normCol (sq : ℚ → ℚ) (s : AndersonAcceleration) (g : ℕ → ℚ) : ℕ → ℚ :=
  fun i => normalizedDF sq s g i s.col_idx.toNat

/-- The squared norm of the normalized column, the dF_sqrnorm local of the
single column branch. -/
def dF_sqrnorm (sq : ℚ → ℚ) (s : AndersonAcceleration) (g : ℕ → ℚ) : ℚ :=
  dot s.dim.toNat (normCol sq s g) (normCol sq s g)

/-- The single mixing coefficient of the m_k equal one branch: zero unless
the norm of the lone column exceeds eps, in which case it is the dot of the
column and the residual, both divided by that norm. -/
def theta1 (sq : ℚ → ℚ) (s : AndersonAcceleration) (g : ℕ → ℚ) : ℚ :=
  if sq (dF_sqrnorm sq s g) > eps then
    dot s.dim.toNat
      (fun i => normCol sq s g i / sq (dF_sqrnorm sq s g))
      (fun i => residual s g i / sq (dF_sqrnorm sq s g))
  else 0

/-- The vector of inner products between the normalized column at col_idx
and the m_k leading columns of prev_dF, the new_inner_prod local. -/
def newInnerProd (sq : ℚ → ℚ) (s : AndersonAcceleration) (g : ℕ → ℚ) :
    ℕ → ℚ :=
  fun j => dot s.dim.toNat (normCol sq s g) (fun i => normalizedDF sq s g i j)

/-- The normal equation matrix M after this call: in the single column
branch only the corner entry is written with the squared norm; otherwise
row col_idx and column col_idx of the leading m_k block are rewritten with
the fresh inner products. -/
def updatedM (sq : ℚ → ℚ) (s : AndersonAcceleration) (g : ℕ → ℚ) :
    ℕ → ℕ → ℚ :=
  if m_k s = 1 then
    fun i j => if i = 0 ∧ j = 0 then dF_sqrnorm sq s g else s.M i j
  else
    fun i j =>
      if i = s.col_idx.toNat ∧ (j : ℤ) < m_k s then newInnerProd sq s g j
      else if j = s.col_idx.toNat ∧ (i : ℤ) < m_k s then newInnerProd sq s g i
      else s.M i j

/-- The right hand side of the normal equations, the transpose of the
leading dF block times the residual. -/
def rhsVec (sq : ℚ → ℚ) (s : AndersonAcceleration) (g : ℕ → ℚ) : ℕ → ℚ :=
  fun j => dot s.dim.toNat (fun i => normalizedDF sq s g i j) (residual s g)

/-- Interface of the external least squares solver: from a square matrix of
a given size and a right hand side, produce a coefficient vector.  The
complete orthogonal decomposition member of the class is an instance. -/
def Solver : Type :=
  (k : ℕ) → (Fin k → Fin k → ℚ) → (Fin k → ℚ) → Fin k → ℚ

/-- The coefficients returned by the external solve on the leading m_k
block of the updated M and the normal equation right hand side. -/
def solvedTheta (sq : ℚ → ℚ) (solve : Solver) (s : AndersonAcceleration)
    (g : ℕ → ℚ) : Fin (m_k s).toNat → ℚ :=
  solve (m_k s).toNat (fun i j => updatedM sq s g i j)
    (fun j => rhsVec sq s g j)

/-- The theta vector after this call: the leading m_k entries come from the
single column formula or from the solver, the rest are untouched. -/
def updatedTheta (sq : ℚ → ℚ) (solve : Solver) (s : AndersonAcceleration)
    (g : ℕ → ℚ) : ℕ → ℚ :=
  if m_k s = 1 then
    fun j => if j = 0 then theta1 sq s g else s.theta j
  else
    fun j =>
      if h : j < (m_k s).toNat then solvedTheta sq solve s g ⟨j, h⟩
      else s.theta j

/-- The mixing step: the new iterate is g minus the leading m_k columns of
prev_dG times the rescaled coefficients theta divided entrywise by the
stored scales. -/
def mixedU (sq : ℚ → ℚ) (solve : Solver) (s : AndersonAcceleration)
    (g : ℕ → ℚ) : ℕ → ℚ :=
  fun i =>
    g i - ∑ j ∈ Finset.range (m_k s).toNat,
      updatedDG s g i j *
        (updatedTheta sq solve s g j / updatedScale sq s g j)

/-- One compute call after the assert: the cold start branch when iter is
zero, otherwise finalize, normalize, solve, mix, advance the circular
index and seed the next column. -/
def computeBody (sq : ℚ → ℚ) (solve : Solver) (s : AndersonAcceleration)
    (g : ℕ → ℚ) : AndersonAcceleration :=
  if s.iter = 0 then
    { s with
      current_F := residual s g
      prev_dF := fun i j => if j = 0 then -(residual s g i) else s.prev_dF i j
      prev_dG := fun i j => if j = 0 then -(g i) else s.prev_dG i j
      current_u := g
      iter := s.iter + 1 }
  else
    { s with
      current_F := residual s g
      prev_dF := fun i j =>
        if j = ((s.col_idx + 1) % s.m).toNat then -(residual s g i)
        else normalizedDF sq s g i j
      prev_dG := fun i j =>
        if j = ((s.col_idx + 1) % s.m).toNat then -(g i)
        else updatedDG s g i j
      dF_scale := updatedScale sq s g
      M := updatedM sq s g
      theta := updatedTheta sq solve s g
      current_u := mixedU sq solve s g
      col_idx := (s.col_idx + 1) % s.m
      iter := s.iter + 1 }

/-- The compute member, including the assert that iter is nonnegative:
none models the failed assertion on a not yet initialized object. -/
def compute (sq : ℚ → ℚ) (solve : Solver) (s : AndersonAcceleration)
    (g : ℕ → ℚ) : Option AndersonAcceleration :=
  if 0 ≤ s.iter then some (computeBody sq solve s g) else none

/-- States reachable through the public protocol: an init call with a
positive window, the precondition asserted by init, followed by any
sequence of successful compute calls, with arbitrary library functions at
each step, and replace calls. -/
inductive Reachable : AndersonAcceleration → Prop where
  | init_step : ∀ (m d : ℤ) (u0 : ℕ → ℚ) (s : AndersonAcceleration),
      0 < m → Reachable (init m d u0 s)
  | compute_step : ∀ (sq : ℚ → ℚ) (solve : Solver)
      (s t : AndersonAcceleration) (g : ℕ → ℚ),
      Reachable s → compute sq solve s g = some t → Reachable t
  | replace_step : ∀ (s : AndersonAcceleration) (u : ℕ → ℚ),
      Reachable s → Reachable (replace s u)

/-- Internal invariant of an initialized object: the window is positive,
the counter nonnegative, the write index follows the circular schedule,
every active scale entry other than the pending seed slot is clamped, and
every active normal equation entry away from the pending seed slot holds
the inner product of the corresponding stored columns. -/
structure AAInv (s : AndersonAcceleration) : Prop where
  hm : 0 < s.m
  hiter : 0 ≤ s.iter
  hcol0 : s.iter = 0 → s.col_idx = 0
  hcol1 : 1 ≤ s.iter → s.col_idx = (s.iter - 1) % s.m
  hscale : ∀ j : ℕ, (j : ℤ) < min s.m s.iter → (j : ℤ) ≠ s.col_idx →
      eps ≤ s.dF_scale j
  hgram : ∀ i j : ℕ, (i : ℤ) < min s.m s.iter → (j : ℤ) < min s.m s.iter →
      (i : ℤ) ≠ s.col_idx → (j : ℤ) ≠ s.col_idx →
      s.M i j =
        dot s.dim.toNat (fun r => s.prev_dF r i) (fun r => s.prev_dF r j)

/-- A zero coordinate function, used to build concrete objects. -/
def zf : ℕ → ℚ := fun _ => 0

/-- A zero matrix function, used to build concrete objects. -/
def zm : ℕ → ℕ → ℚ := fun _ _ => 0

/-- A concrete stand in for the library square root that returns zero. -/
def sq0 : ℚ → ℚ := fun _ => 0

/-- A concrete square root oracle correct at the two values reached by the
single column scenario below. -/
def sqW : ℚ → ℚ := fun x => if x = 9 then 3 else if x = 1 then 1 else 0

/-- A concrete stand in for the external least squares solver that returns
the right hand side; it maps a zero right hand side to zero. -/
def solve0 : Solver := fun _ _ v => v

/-- A default constructed object before any init call. -/
def blank : AndersonAcceleration := mkAA zf zf zm zm zm zf zf

/-- A vector to feed to replace in the pre init scenario. -/
def gFive : ℕ → ℚ := fun _ => 5

/-- The constant one map evaluation used by the concrete scenarios. -/
def gOne : ℕ → ℚ := fun _ => 1

/-- A freshly initialized object with window two, dimension one and zero
start. -/
def s0w : AndersonAcceleration := init 2 1 zf blank

/-- The object after one compute with evaluation one: iterate one, slot
zero seeded with minus one. -/
def s1q : AndersonAcceleration := computeBody sqW solve0 s0w gOne

/-- A pre init object whose normal equation buffer is filled with a
recognizable garbage value. -/
def junk99 : AndersonAcceleration := mkAA zf zf zm zm (fun _ _ => 99) zf zf

/-- The garbage carrying object after init and one compute, used to refute
the post call reading of the Gram consistency claim. -/
def s1bad : AndersonAcceleration := computeBody sq0 solve0 (init 2 1 zf junk99) gOne

/-- A copy of the one step object whose stale slots, the Gram entries,
scale entries and history columns at or beyond the single active one, are
overwritten with recognizable garbage. -/
def s1mod : AndersonAcceleration :=
  { s1q with
    M := fun i j => if i = 0 ∧ j = 0 then s1q.M 0 0 else 99
    dF_scale := fun j => if j = 0 then s1q.dF_scale 0 else 77
    prev_dF := fun i j => if j = 0 then s1q.prev_dF i 0 else 55
    prev_dG := fun i j => if j = 0 then s1q.prev_dG i 0 else 44 }

theorem dot_comm (d : ℕ) (f g : ℕ → ℚ) : dot d f g = dot d g f := by
  unfold dot
  exact Finset.sum_congr rfl fun i _ => mul_comm _ _

/-- C2: after a valid init with positive window, the first compute call
succeeds, returns exactly the supplied evaluation g, seeds history slot
zero of prev_dF with the negated residual and of prev_dG with the negated
evaluation, and advances the counter to one. -/
theorem cold_start_returns_g (m d : ℤ) (u0 : ℕ → ℚ) (s0 : AndersonAcceleration)
    (sq : ℚ → ℚ) (solve : Solver) (g : ℕ → ℚ) (hm : 0 < m) :
    compute sq solve (init m d u0 s0) g =
      some (computeBody sq solve (init m d u0 s0) g) ∧
    (∀ i, (computeBody sq solve (init m d u0 s0) g).current_u i = g i) ∧
    (∀ i, (computeBody sq solve (init m d u0 s0) g).prev_dF i 0 =
      -(g i - u0 i)) ∧
    (∀ i, (computeBody sq solve (init m d u0 s0) g).prev_dG i 0 = -(g i)) ∧
    (computeBody sq solve (init m d u0 s0) g).iter = 1 := by
  refine ⟨rfl, fun i => rfl, fun i => rfl, fun i => rfl, rfl⟩

theorem cold_start_returns_g_witness :
    (0 : ℤ) < 2 ∧
    (computeBody sq0 solve0 (init 2 1 zf blank) gOne).current_u 0 = gOne 0 :=
  ⟨by decide, (cold_start_returns_g 2 1 zf blank sq0 solve0 gOne (by decide)).2.1 0⟩

/-- C3: replace overwrites only the current iterate and leaves the history
buffers, the scale vector, the normal equation matrix, the theta vector,
the sizes, the counter and the write index untouched, and a compute call
performed next computes its residual against the replaced iterate. -/
theorem replace_only_overwrites_iterate (s : AndersonAcceleration)
    (u : ℕ → ℚ) :
    (replace s u).current_u = u ∧
    (replace s u).current_F = s.current_F ∧
    (replace s u).prev_dG = s.prev_dG ∧
    (replace s u).prev_dF = s.prev_dF ∧
    (replace s u).M = s.M ∧
    (replace s u).theta = s.theta ∧
    (replace s u).dF_scale = s.dF_scale ∧
    (replace s u).m = s.m ∧
    (replace s u).dim = s.dim ∧
    (replace s u).iter = s.iter ∧
    (replace s u).col_idx = s.col_idx ∧
    ∀ (sq : ℚ → ℚ) (solve : Solver) (g : ℕ → ℚ) (t : AndersonAcceleration),
      compute sq solve (replace s u) g = some t →
      ∀ i, t.current_F i = g i - u i := by
  refine ⟨rfl, rfl, rfl, rfl, rfl, rfl, rfl, rfl, rfl, rfl, rfl, ?_⟩
  intro sq solve g t ht i
  have hbody : t = computeBody sq solve (replace s u) g := by
    unfold compute at ht
    split at ht
    · exact (Option.some.inj ht).symm
    · exact absurd ht (by simp)
  subst hbody
  unfold computeBody
  split
  · rfl
  · rfl

theorem replace_only_overwrites_iterate_witness :
    (computeBody sq0 solve0 (replace s0w gFive) gOne).current_F 0 =
      gOne 0 - gFive 0 :=
  (replace_only_overwrites_iterate s0w gFive).2.2.2.2.2.2.2.2.2.2.2
    sq0 solve0 gOne (computeBody sq0 solve0 (replace s0w gFive) gOne) rfl 0

/-- C6: on the default constructed object, whose counter and size still
hold the sentinel minus one, compute fails fast through its own assertion
on the iteration counter and replace fails fast through the size assertion
of the library vector copy; neither returns an error value or proceeds.
On any object with a nonnegative size, so in particular after init, the
checked replace succeeds and is the plain overwrite. -/
theorem preinit_misuse_aborts :
    blank.iter = -1 ∧ blank.dim = -1 ∧
    (∀ (sq : ℚ → ℚ) (solve : Solver) (g : ℕ → ℚ),
      compute sq solve blank g = none) ∧
    (∀ u : ℕ → ℚ, replaceChecked blank u = none) ∧
    (∀ (s : AndersonAcceleration) (u : ℕ → ℚ), 0 ≤ s.dim →
      replaceChecked s u = some (replace s u)) := by
  refine ⟨rfl, rfl, fun _ _ _ => rfl, fun _ => rfl, ?_⟩
  intro s u h
  unfold replaceChecked
  rw [if_pos h]

theorem preinit_misuse_aborts_witness :
    replaceChecked s0w gFive = some (replace s0w gFive) :=
  preinit_misuse_aborts.2.2.2.2 s0w gFive (by decide)

/-- C10: a renewed init, at any time and from any prior state, resets the
object to a fresh cold start: the iterate becomes u0, the counter and the
write index become zero, the recorded sizes become the new ones, and the
next compute takes the first call path, returning exactly g and seeding
slot zero, with both the returned vector and the seeded slot independent
of whatever state preceded the init call. -/
theorem reinit_cold_start (m d : ℤ) (u0 : ℕ → ℚ) (s : AndersonAcceleration)
    (sq : ℚ → ℚ) (solve : Solver) (g : ℕ → ℚ) (hm : 0 < m) :
    (init m d u0 s).current_u = u0 ∧
    (init m d u0 s).iter = 0 ∧
    (init m d u0 s).col_idx = 0 ∧
    (init m d u0 s).m = m ∧
    (init m d u0 s).dim = d ∧
    compute sq solve (init m d u0 s) g =
      some (computeBody sq solve (init m d u0 s) g) ∧
    (∀ i, (computeBody sq solve (init m d u0 s) g).current_u i = g i) ∧
    (computeBody sq solve (init m d u0 s) g).iter = 1 ∧
    (∀ t : AndersonAcceleration, ∀ i,
      (computeBody sq solve (init m d u0 t) g).current_u i =
        (computeBody sq solve (init m d u0 s) g).current_u i ∧
      (computeBody sq solve (init m d u0 t) g).prev_dF i 0 =
        (computeBody sq solve (init m d u0 s) g).prev_dF i 0 ∧
      (computeBody sq solve (init m d u0 t) g).prev_dG i 0 =
        (computeBody sq solve (init m d u0 s) g).prev_dG i 0) := by
  refine ⟨rfl, rfl, rfl, rfl, rfl, rfl, fun i => rfl, rfl,
    fun t i => ⟨rfl, rfl, rfl⟩⟩

/-- C1: on every compute call with a positive iteration count, the call
succeeds and the returned iterate is g minus the product of the leading
m_k columns of the finalized iterate increment matrix with the vector of
mixing coefficients theta, as stored by the call, divided entrywise by the
stored scales of the active columns, where m_k is the min of the window
and the iteration count. -/
theorem mixing_update_formula (sq : ℚ → ℚ) (solve : Solver)
    (s : AndersonAcceleration) (g : ℕ → ℚ) (h1 : 1 ≤ s.iter) :
    compute sq solve s g = some (computeBody sq solve s g) ∧
    m_k s = min s.m s.iter ∧
    ∀ i, (computeBody sq solve s g).current_u i =
      g i - ∑ j ∈ Finset.range (m_k s).toNat,
        updatedDG s g i j *
          ((computeBody sq solve s g).theta j /
            (computeBody sq solve s g).dF_scale j) := by
  have h0 : ¬ s.iter = 0 := by omega
  refine ⟨by unfold compute; rw [if_pos (by omega)], rfl, fun i => ?_⟩
  unfold computeBody
  rw [if_neg h0]
  rfl

theorem mixing_update_formula_witness :
    (1 : ℤ) ≤ s1q.iter ∧
    (computeBody sqW solve0 s1q gFive).current_u 0 =
      gFive 0 - ∑ j ∈ Finset.range (m_k s1q).toNat,
        updatedDG s1q gFive 0 j *
          ((computeBody sqW solve0 s1q gFive).theta j /
            (computeBody sqW solve0 s1q gFive).dF_scale j) :=
  ⟨by decide, (mixing_update_formula sqW solve0 s1q gFive (by decide)).2.2 0⟩

/-- C8: when the supplied evaluation coincides with the current iterate,
so that the residual vanishes, a compute call returns exactly g on every
path, provided the external least squares solver maps a zero right hand
side to zero, which the complete orthogonal decomposition does since zero
is the least squares solution of minimal norm. -/
theorem identity_map_fixed_point (sq : ℚ → ℚ) (solve : Solver)
    (s : AndersonAcceleration) (g : ℕ → ℚ)
    (hg : ∀ i, g i = s.current_u i)
    (hsolve : ∀ (k : ℕ) (A : Fin k → Fin k → ℚ),
      solve k A (fun _ => 0) = fun _ => 0) :
    ∀ i, (computeBody sq solve s g).current_u i = g i := by
  intro i
  have hF : ∀ r, residual s g r = 0 := by
    intro r
    unfold residual
    rw [hg r, sub_self]
  unfold computeBody
  split
  · rfl
  case isFalse h0 =>
  show mixedU sq solve s g i = g i
  have hth : ∀ j, j < (m_k s).toNat → updatedTheta sq solve s g j = 0 := by
    intro j hj
    unfold updatedTheta
    split
    case isTrue hk =>
      have hj0 : j = 0 := by
        rw [hk] at hj
        omega
      show (if j = 0 then theta1 sq s g else s.theta j) = 0
      rw [if_pos hj0]
      unfold theta1
      split
      · unfold dot
        apply Finset.sum_eq_zero
        intro r _
        simp [hF r]
      · rfl
    case isFalse hk =>
      show (if h : j < (m_k s).toNat then solvedTheta sq solve s g ⟨j, h⟩
        else s.theta j) = 0
      rw [dif_pos hj]
      unfold solvedTheta
      have hrhs : (fun j : Fin (m_k s).toNat => rhsVec sq s g j) =
          fun _ => 0 := by
        funext r
        unfold rhsVec dot
        apply Finset.sum_eq_zero
        intro t _
        simp [hF t]
      rw [hrhs, hsolve]
  unfold mixedU
  have hzero : ∀ j ∈ Finset.range (m_k s).toNat,
      updatedDG s g i j *
        (updatedTheta sq solve s g j / updatedScale sq s g j) = 0 := by
    intro j hj
    rw [hth j (Finset.mem_range.mp hj)]
    simp
  rw [Finset.sum_eq_zero hzero, sub_zero]

theorem identity_map_fixed_point_witness :
    (computeBody sq0 solve0 s1q gOne).current_u 0 = gOne 0 :=
  identity_map_fixed_point sq0 solve0 s1q gOne (fun i => rfl)
    (fun k A => rfl) 0

/-- C5: on a compute call whose active window has a single column, the
stored coefficient is the dot of the normalized column and the residual
divided by the squared norm of that column whenever the computed norm
exceeds eps, and zero otherwise; in the zero case the mixing degenerates
and the call returns the unmixed evaluation g.  The hypothesis states that
the library square root really squares back to its argument at the one
value where this matters. -/
theorem single_column_theta_guard (sq : ℚ → ℚ) (solve : Solver)
    (s : AndersonAcceleration) (g : ℕ → ℚ)
    (h1 : 1 ≤ s.iter) (hk : m_k s = 1)
    (hsq : sq (dF_sqrnorm sq s g) * sq (dF_sqrnorm sq s g) =
      dF_sqrnorm sq s g) :
    (sq (dF_sqrnorm sq s g) > eps →
      (computeBody sq solve s g).theta 0 =
        dot s.dim.toNat (normCol sq s g) (residual s g) /
          dF_sqrnorm sq s g) ∧
    (¬ sq (dF_sqrnorm sq s g) > eps →
      (computeBody sq solve s g).theta 0 = 0 ∧
      ∀ i, (computeBody sq solve s g).current_u i = g i) := by
  have h0 : ¬ s.iter = 0 := by omega
  have hthproj : (computeBody sq solve s g).theta =
      updatedTheta sq solve s g := by
    unfold computeBody
    rw [if_neg h0]
  have huproj : ∀ i, (computeBody sq solve s g).current_u i =
      mixedU sq solve s g i := by
    intro i
    unfold computeBody
    rw [if_neg h0]
  have hth : updatedTheta sq solve s g 0 = theta1 sq s g := by
    unfold updatedTheta
    rw [if_pos hk]
    simp
  constructor
  · intro hguard
    rw [hthproj, hth]
    unfold theta1
    rw [if_pos hguard]
    unfold dot
    have hterm : ∀ i ∈ Finset.range s.dim.toNat,
        normCol sq s g i / sq (dF_sqrnorm sq s g) *
          (residual s g i / sq (dF_sqrnorm sq s g)) =
        normCol sq s g i * residual s g i /
          (sq (dF_sqrnorm sq s g) * sq (dF_sqrnorm sq s g)) :=
      fun i _ => div_mul_div_comm _ _ _ _
    rw [Finset.sum_congr rfl hterm, ← Finset.sum_div, hsq]
  · intro hguard
    have ht0 : updatedTheta sq solve s g 0 = 0 := by
      rw [hth]
      unfold theta1
      rw [if_neg hguard]
    refine ⟨by rw [hthproj, ht0], fun i => ?_⟩
    rw [huproj i]
    unfold mixedU
    rw [hk, show ((1 : ℤ).toNat) = 1 from rfl, Finset.sum_range_one, ht0]
    simp

theorem s1q_sqrnorm : dF_sqrnorm sqW s1q gFive = 1 := by
  norm_num [dF_sqrnorm, dot, normCol, normalizedDF, finalizedDF, residual,
    colScale, eps, sqW, s1q, computeBody, s0w, init, blank, mkAA, zf, gOne,
    gFive, Finset.sum_range_one, max_def]

theorem single_column_theta_guard_witness :
    (computeBody sqW solve0 s1q gFive).theta 0 =
      dot s1q.dim.toNat (normCol sqW s1q gFive) (residual s1q gFive) /
        dF_sqrnorm sqW s1q gFive :=
  (single_column_theta_guard sqW solve0 s1q gFive (by decide) (by decide)
    (by rw [s1q_sqrnorm]; norm_num [sqW])).1
    (by rw [s1q_sqrnorm]; norm_num [sqW, eps])

theorem reinit_cold_start_witness :
    (0 : ℤ) < 3 ∧
    (init 3 2 gFive s1q).iter = 0 ∧
    (computeBody sq0 solve0 (init 3 2 gFive s1q) gOne).current_u 0 = gOne 0 := by
  have h := reinit_cold_start 3 2 gFive s1q sq0 solve0 gOne (by decide)
  exact ⟨by decide, h.2.1, h.2.2.2.2.2.2.1 0⟩

theorem active_shrink {m iter : ℤ} {j : ℕ} (hm : 0 < m) (h1 : 1 ≤ iter)
    (hj : (j : ℤ) < min m (iter + 1)) (hne : (j : ℤ) ≠ iter % m) :
    (j : ℤ) < min m iter := by
  rcases lt_or_le iter m with h | h
  · rw [Int.emod_eq_of_lt (by omega) h] at hne
    omega
  · omega

theorem gram_mid (sq : ℚ → ℚ) (s : AndersonAcceleration) (g : ℕ → ℚ)
    (inv : AAInv s) (h1 : 1 ≤ s.iter) (i j : ℕ)
    (hi : (i : ℤ) < m_k s) (hj : (j : ℤ) < m_k s) :
    updatedM sq s g i j =
      dot s.dim.toNat (fun r => normalizedDF sq s g r i)
        (fun r => normalizedDF sq s g r j) := by
  have hmpos := inv.hm
  have hc := inv.hcol1 h1
  have hc0 : 0 ≤ s.col_idx := by
    rw [hc]
    exact Int.emod_nonneg _ (by omega)
  have hcc : (s.col_idx.toNat : ℤ) = s.col_idx := Int.toNat_of_nonneg hc0
  have hmk : m_k s = min s.m s.iter := rfl
  unfold updatedM
  by_cases hk : m_k s = 1
  · rw [if_pos hk]
    rw [hk] at hi hj
    have hi0 : i = 0 := by omega
    have hj0 : j = 0 := by omega
    subst hi0
    subst hj0
    have hone : s.m = 1 ∨ s.iter = 1 := by
      rw [hmk] at hk
      omega
    have hcz : s.col_idx = 0 := by
      rcases hone with h | h
      · rw [hc, h, Int.emod_one]
      · rw [hc, h]
        simp
    show (if (0 : ℕ) = 0 ∧ (0 : ℕ) = 0 then dF_sqrnorm sq s g else s.M 0 0) = _
    rw [if_pos ⟨rfl, rfl⟩]
    unfold dF_sqrnorm normCol
    rw [hcz]
    rfl
  · rw [if_neg hk]
    show (if i = s.col_idx.toNat ∧ (j : ℤ) < m_k s then newInnerProd sq s g j
      else if j = s.col_idx.toNat ∧ (i : ℤ) < m_k s then newInnerProd sq s g i
      else s.M i j) = _
    by_cases hic : i = s.col_idx.toNat
    · rw [if_pos ⟨hic, hj⟩]
      subst hic
      rfl
    · by_cases hjc : j = s.col_idx.toNat
      · rw [if_neg (fun h => hic h.1), if_pos ⟨hjc, hi⟩]
        subst hjc
        exact dot_comm _ _ _
      · rw [if_neg (fun h => hic h.1), if_neg (fun h => hjc h.1)]
        have hizc : (i : ℤ) ≠ s.col_idx := by
          intro h
          apply hic
          omega
        have hjzc : (j : ℤ) ≠ s.col_idx := by
          intro h
          apply hjc
          omega
        rw [inv.hgram i j hi hj hizc hjzc]
        have e1 : (fun r => normalizedDF sq s g r i) = fun r => s.prev_dF r i := by
          funext r
          unfold normalizedDF
          rw [if_neg hic]
        have e2 : (fun r => normalizedDF sq s g r j) = fun r => s.prev_dF r j := by
          funext r
          unfold normalizedDF
          rw [if_neg hjc]
        rw [e1, e2]

theorem inv_computeBody (sq : ℚ → ℚ) (solve : Solver)
    (s : AndersonAcceleration) (g : ℕ → ℚ) (inv : AAInv s) :
    AAInv (computeBody sq solve s g) := by
  have hmpos := inv.hm
  have hit := inv.hiter
  by_cases h0 : s.iter = 0
  · have hcz : s.col_idx = 0 := inv.hcol0 h0
    unfold computeBody
    rw [if_pos h0]
    constructor
    · show 0 < s.m
      omega
    · show (0 : ℤ) ≤ s.iter + 1
      omega
    · intro h
      exact absurd (show s.iter + 1 = 0 from h) (by omega)
    · intro _
      show s.col_idx = (s.iter + 1 - 1) % s.m
      rw [hcz, h0]
      simp
    · intro j hj hne
      exfalso
      have hj2 : (j : ℤ) < min s.m (s.iter + 1) := hj
      have hne2 : (j : ℤ) ≠ s.col_idx := hne
      rw [hcz] at hne2
      rw [h0] at hj2
      omega
    · intro i j hi hj hine hjne
      exfalso
      have hi2 : (i : ℤ) < min s.m (s.iter + 1) := hi
      have hine2 : (i : ℤ) ≠ s.col_idx := hine
      rw [hcz] at hine2
      rw [h0] at hi2
      omega
  · have h1 : 1 ≤ s.iter := by omega
    have hc := inv.hcol1 h1
    have hcpost : (s.col_idx + 1) % s.m = s.iter % s.m := by
      rw [hc, Int.emod_add_emod]
      norm_num
    have hcpost0 : 0 ≤ (s.col_idx + 1) % s.m := Int.emod_nonneg _ (by omega)
    have hc0 : 0 ≤ s.col_idx := by
      rw [hc]
      exact Int.emod_nonneg _ (by omega)
    unfold computeBody
    rw [if_neg h0]
    constructor
    · show 0 < s.m
      omega
    · show (0 : ℤ) ≤ s.iter + 1
      omega
    · intro h
      exact absurd (show s.iter + 1 = 0 from h) (by omega)
    · intro _
      show (s.col_idx + 1) % s.m = (s.iter + 1 - 1) % s.m
      rw [hcpost]
      norm_num
    · intro j hj hne
      have hj2 : (j : ℤ) < min s.m (s.iter + 1) := hj
      have hne2 : (j : ℤ) ≠ (s.col_idx + 1) % s.m := hne
      show eps ≤ updatedScale sq s g j
      unfold updatedScale
      by_cases hjc : j = s.col_idx.toNat
      · rw [if_pos hjc]
        exact le_max_left _ _
      · rw [if_neg hjc]
        have hne3 : (j : ℤ) ≠ s.iter % s.m := by
          rw [← hcpost]
          exact hne2
        apply inv.hscale j (active_shrink hmpos h1 hj2 hne3)
        intro h
        apply hjc
        omega
    · intro i j hi hj hine hjne
      have hi1 : (i : ℤ) < min s.m (s.iter + 1) := hi
      have hj1 : (j : ℤ) < min s.m (s.iter + 1) := hj
      have hine1 : (i : ℤ) ≠ (s.col_idx + 1) % s.m := hine
      have hjne1 : (j : ℤ) ≠ (s.col_idx + 1) % s.m := hjne
      have hine2 : (i : ℤ) ≠ s.iter % s.m := by
        rw [← hcpost]
        exact hine1
      have hjne2 : (j : ℤ) ≠ s.iter % s.m := by
        rw [← hcpost]
        exact hjne1
      have hi2 := active_shrink hmpos h1 hi1 hine2
      have hj2 := active_shrink hmpos h1 hj1 hjne2
      have hiN : i ≠ ((s.col_idx + 1) % s.m).toNat := by
        intro h
        apply hine1
        omega
      have hjN : j ≠ ((s.col_idx + 1) % s.m).toNat := by
        intro h
        apply hjne1
        omega
      show updatedM sq s g i j =
        dot s.dim.toNat
          (fun r => if i = ((s.col_idx + 1) % s.m).toNat then -(residual s g r)
            else normalizedDF sq s g r i)
          (fun r => if j = ((s.col_idx + 1) % s.m).toNat then -(residual s g r)
            else normalizedDF sq s g r j)
      have e1 : (fun r =>
          if i = ((s.col_idx + 1) % s.m).toNat then -(residual s g r)
            else normalizedDF sq s g r i) = fun r => normalizedDF sq s g r i := by
        funext r
        rw [if_neg hiN]
      have e2 : (fun r =>
          if j = ((s.col_idx + 1) % s.m).toNat then -(residual s g r)
            else normalizedDF sq s g r j) = fun r => normalizedDF sq s g r j := by
        funext r
        rw [if_neg hjN]
      rw [e1, e2]
      exact gram_mid sq s g inv h1 i j hi2 hj2

theorem reachable_inv (s : AndersonAcceleration) (h : Reachable s) : AAInv s := by
  induction h with
  | init_step m d u0 s0 hm =>
      constructor
      · exact hm
      · exact le_refl 0
      · intro _
        rfl
      · intro h1
        exact absurd (show (1 : ℤ) ≤ 0 from h1) (by norm_num)
      · intro j hj hne
        exfalso
        have hj2 : (j : ℤ) < min m 0 := hj
        have : min m (0 : ℤ) ≤ 0 := min_le_right _ _
        omega
      · intro i j hi hj hine hjne
        exfalso
        have hi2 : (i : ℤ) < min m 0 := hi
        have : min m (0 : ℤ) ≤ 0 := min_le_right _ _
        omega
  | compute_step sq solve s t g hs hc ih =>
      have ht : t = computeBody sq solve s g := by
        unfold compute at hc
        split at hc
        · exact (Option.some.inj hc).symm
        · exact absurd hc (by simp)
      rw [ht]
      exact inv_computeBody sq solve s g ih
  | replace_step s u hs ih =>
      exact ⟨ih.hm, ih.hiter, ih.hcol0, ih.hcol1, ih.hscale, ih.hgram⟩

/-- C7: on every compute call on a reachable state past the first, the
scale stored at the finalized slot is the eps clamped norm of the finalized
residual increment, every scale entry read by the mixing step is at least
eps and hence nonzero, and the returned iterate is the well defined mixing
expression dividing by exactly those entries. -/
theorem scale_clamped_and_mixing_welldefined (sq : ℚ → ℚ) (solve : Solver)
    (s : AndersonAcceleration) (g : ℕ → ℚ)
    (hr : Reachable s) (h1 : 1 ≤ s.iter) :
    updatedScale sq s g s.col_idx.toNat =
      max eps (sq (dot s.dim.toNat (finalizedDF s g) (finalizedDF s g))) ∧
    (∀ j : ℕ, (j : ℤ) < m_k s → eps ≤ updatedScale sq s g j) ∧
    (∀ j : ℕ, (j : ℤ) < m_k s → updatedScale sq s g j ≠ 0) ∧
    (∀ i, (computeBody sq solve s g).current_u i =
      g i - ∑ j ∈ Finset.range (m_k s).toNat,
        updatedDG s g i j *
          (updatedTheta sq solve s g j / updatedScale sq s g j)) := by
  have inv := reachable_inv s hr
  have hmpos := inv.hm
  have hc0 : 0 ≤ s.col_idx := by
    rw [inv.hcol1 h1]
    exact Int.emod_nonneg _ (by omega)
  have h2 : ∀ j : ℕ, (j : ℤ) < m_k s → eps ≤ updatedScale sq s g j := by
    intro j hj
    unfold updatedScale
    by_cases hjc : j = s.col_idx.toNat
    · rw [if_pos hjc]
      exact le_max_left _ _
    · rw [if_neg hjc]
      apply inv.hscale j hj
      intro h
      apply hjc
      omega
  have heps : (0 : ℚ) < eps := by norm_num [eps]
  refine ⟨?_, h2, fun j hj => ne_of_gt (lt_of_lt_of_le heps (h2 j hj)),
    fun i => ?_⟩
  · unfold updatedScale
    rw [if_pos rfl]
    rfl
  · have hit := inv.hiter
    unfold computeBody
    rw [if_neg (by omega)]
    rfl

theorem scale_clamped_and_mixing_welldefined_witness :
    eps ≤ updatedScale sqW s1q gFive 0 :=
  (scale_clamped_and_mixing_welldefined sqW solve0 s1q gFive
    (Reachable.compute_step sqW solve0 s0w s1q gOne
      (Reachable.init_step 2 1 zf blank (by decide)) rfl)
    (by decide)).2.1 0 (by decide)

/-- C9 counterexample: read after the call with the post call iteration
count, the claim fails on the very first compute: the active block then has
size one, but the corner of M still holds the garbage left by init, and the
single history column holds the unnormalized seed, so the corner does not
equal the inner product of the column with itself. -/
theorem gram_stale_after_first_compute :
    min s1bad.m s1bad.iter = 1 ∧
    s1bad.M 0 0 = 99 ∧
    dot s1bad.dim.toNat (fun r => s1bad.prev_dF r 0)
      (fun r => s1bad.prev_dF r 0) = 1 ∧
    s1bad.M 0 0 ≠
      dot s1bad.dim.toNat (fun r => s1bad.prev_dF r 0)
        (fun r => s1bad.prev_dF r 0) := by
  have hM : s1bad.M 0 0 = 99 := rfl
  have hdot : dot s1bad.dim.toNat (fun r => s1bad.prev_dF r 0)
      (fun r => s1bad.prev_dF r 0) = 1 := by
    norm_num [dot, s1bad, computeBody, init, junk99, mkAA, zf, gOne, residual,
      Finset.sum_range_one]
  refine ⟨by decide, hM, hdot, ?_⟩
  rw [hM, hdot]
  norm_num

/-- C9 amended: at the point of the least squares solve inside a compute
call on a reachable state, with m_k the min of the window and the pre call
iteration count, the active m_k block of the updated normal equation matrix
is symmetric and each entry is the inner product of the corresponding
normalized history columns as stored at that point. -/
theorem gram_block_consistent_at_solve (sq : ℚ → ℚ)
    (s : AndersonAcceleration) (g : ℕ → ℚ)
    (hr : Reachable s) (h1 : 1 ≤ s.iter) :
    ∀ i j : ℕ, (i : ℤ) < m_k s → (j : ℤ) < m_k s →
      updatedM sq s g i j =
        dot s.dim.toNat (fun r => normalizedDF sq s g r i)
          (fun r => normalizedDF sq s g r j) ∧
      updatedM sq s g i j = updatedM sq s g j i := by
  have inv := reachable_inv s hr
  intro i j hi hj
  refine ⟨gram_mid sq s g inv h1 i j hi hj, ?_⟩
  rw [gram_mid sq s g inv h1 i j hi hj, gram_mid sq s g inv h1 j i hj hi]
  exact dot_comm _ _ _

theorem gram_block_consistent_at_solve_witness :
    updatedM sqW s1q gFive 0 0 =
      dot s1q.dim.toNat (fun r => normalizedDF sqW s1q gFive r 0)
        (fun r => normalizedDF sqW s1q gFive r 0) :=
  (gram_block_consistent_at_solve sqW s1q gFive
    (Reachable.compute_step sqW solve0 s0w s1q gOne
      (Reachable.init_step 2 1 zf blank (by decide)) rfl)
    (by decide) 0 0 (by decide) (by decide)).1

/-- C4: two objects that agree on the sizes, the counters, the current
iterate and every active slot, while differing arbitrarily in the Gram
entries, scale entries and history columns at or beyond m_k, produce the
same returned iterate on the same evaluation; the write index bound holds
in every reachable state by the internal invariant. -/
theorem stale_slots_no_influence (sq : ℚ → ℚ) (solve : Solver)
    (s t : AndersonAcceleration) (g : ℕ → ℚ)
    (hm : t.m = s.m) (hdim : t.dim = s.dim) (hiter : t.iter = s.iter)
    (hcol : t.col_idx = s.col_idx) (hu : t.current_u = s.current_u)
    (hM : ∀ i j : ℕ, (i : ℤ) < m_k s → (j : ℤ) < m_k s → t.M i j = s.M i j)
    (hsc : ∀ j : ℕ, (j : ℤ) < m_k s → t.dF_scale j = s.dF_scale j)
    (hdF : ∀ i j : ℕ, (j : ℤ) < m_k s → t.prev_dF i j = s.prev_dF i j)
    (hdG : ∀ i j : ℕ, (j : ℤ) < m_k s → t.prev_dG i j = s.prev_dG i j)
    (hcix : s.iter = 0 ∨ (0 ≤ s.col_idx ∧ s.col_idx < m_k s)) :
    ∀ i, (computeBody sq solve t g).current_u i =
      (computeBody sq solve s g).current_u i := by
  intro i
  have hmk : m_k t = m_k s := by
    unfold m_k
    rw [hm, hiter]
  rcases hcix with h0 | ⟨hc0, hclt⟩
  · unfold computeBody
    rw [hiter, if_pos h0, if_pos h0]
  · have h1 : (0 : ℤ) < s.iter := by
      have hclt2 := hclt
      unfold m_k at hclt2
      omega
    have h0 : ¬ s.iter = 0 := by omega
    have hcm : (s.col_idx.toNat : ℤ) < m_k s := by
      rw [Int.toNat_of_nonneg hc0]
      exact hclt
    have hres : residual t g = residual s g := by
      unfold residual
      rw [hu]
    have hfdF : finalizedDF t g = finalizedDF s g := by
      funext r
      unfold finalizedDF
      rw [hres, hcol, hdF r s.col_idx.toNat hcm]
    have hfdG : finalizedDG t g = finalizedDG s g := by
      funext r
      unfold finalizedDG
      rw [hcol, hdG r s.col_idx.toNat hcm]
    have hcs : colScale sq t g = colScale sq s g := by
      unfold colScale
      rw [hfdF, hdim]
    have hnd : ∀ (r j : ℕ), (j : ℤ) < m_k s →
        normalizedDF sq t g r j = normalizedDF sq s g r j := by
      intro r j hj
      unfold normalizedDF
      rw [hcol, hfdF, hcs]
      by_cases hjc : j = s.col_idx.toNat
      · rw [if_pos hjc, if_pos hjc]
      · rw [if_neg hjc, if_neg hjc]
        exact hdF r j hj
    have hnc : normCol sq t g = normCol sq s g := by
      funext r
      unfold normCol
      rw [hcol]
      exact hnd r s.col_idx.toNat hcm
    have hdsq : dF_sqrnorm sq t g = dF_sqrnorm sq s g := by
      unfold dF_sqrnorm
      rw [hnc, hdim]
    have hth1 : theta1 sq t g = theta1 sq s g := by
      unfold theta1
      rw [hdsq, hnc, hres, hdim]
    have hnip : ∀ j : ℕ, (j : ℤ) < m_k s →
        newInnerProd sq t g j = newInnerProd sq s g j := by
      intro j hj
      unfold newInnerProd
      rw [hdim, hnc, show (fun i => normalizedDF sq t g i j) =
        fun i => normalizedDF sq s g i j from funext fun i => hnd i j hj]
    have hM2 : ∀ a b : ℕ, (a : ℤ) < m_k s → (b : ℤ) < m_k s →
        updatedM sq t g a b = updatedM sq s g a b := by
      intro a b ha hb
      unfold updatedM
      rw [hmk, hcol]
      by_cases hk : m_k s = 1
      · rw [if_pos hk, if_pos hk]
        show (if a = 0 ∧ b = 0 then dF_sqrnorm sq t g else t.M a b) =
          (if a = 0 ∧ b = 0 then dF_sqrnorm sq s g else s.M a b)
        by_cases h00 : a = 0 ∧ b = 0
        · rw [if_pos h00, if_pos h00, hdsq]
        · rw [if_neg h00, if_neg h00]
          exact hM a b ha hb
      · rw [if_neg hk, if_neg hk]
        show (if a = s.col_idx.toNat ∧ (b : ℤ) < m_k s then newInnerProd sq t g b
          else if b = s.col_idx.toNat ∧ (a : ℤ) < m_k s then newInnerProd sq t g a
          else t.M a b) =
          (if a = s.col_idx.toNat ∧ (b : ℤ) < m_k s then newInnerProd sq s g b
          else if b = s.col_idx.toNat ∧ (a : ℤ) < m_k s then newInnerProd sq s g a
          else s.M a b)
        by_cases hA : a = s.col_idx.toNat ∧ (b : ℤ) < m_k s
        · rw [if_pos hA, if_pos hA, hnip b hb]
        · rw [if_neg hA, if_neg hA]
          by_cases hB : b = s.col_idx.toNat ∧ (a : ℤ) < m_k s
          · rw [if_pos hB, if_pos hB, hnip a ha]
          · rw [if_neg hB, if_neg hB]
            exact hM a b ha hb
    have hrhs : ∀ j : ℕ, (j : ℤ) < m_k s → rhsVec sq t g j = rhsVec sq s g j := by
      intro j hj
      unfold rhsVec
      rw [hdim, hres, show (fun i => normalizedDF sq t g i j) =
        fun i => normalizedDF sq s g i j from funext fun i => hnd i j hj]
    have hthe : ∀ j : ℕ, j < (m_k s).toNat →
        updatedTheta sq solve t g j = updatedTheta sq solve s g j := by
      intro j hj
      unfold updatedTheta solvedTheta
      rw [hmk]
      by_cases hk : m_k s = 1
      · rw [if_pos hk, if_pos hk]
        show (if j = 0 then theta1 sq t g else t.theta j) =
          (if j = 0 then theta1 sq s g else s.theta j)
        have hj0 : j = 0 := by
          rw [hk] at hj
          omega
        rw [if_pos hj0, if_pos hj0, hth1]
      · rw [if_neg hk, if_neg hk]
        show (if h : j < (m_k s).toNat then
            solve (m_k s).toNat (fun a b => updatedM sq t g a b)
              (fun b => rhsVec sq t g b) ⟨j, h⟩
          else t.theta j) = (if h : j < (m_k s).toNat then
            solve (m_k s).toNat (fun a b => updatedM sq s g a b)
              (fun b => rhsVec sq s g b) ⟨j, h⟩
          else s.theta j)
        rw [dif_pos hj, dif_pos hj]
        rw [show (fun a b : Fin (m_k s).toNat => updatedM sq t g a b) =
            fun a b : Fin (m_k s).toNat => updatedM sq s g a b from
          funext fun a => funext fun b =>
            hM2 a b (Int.lt_toNat.mp a.isLt) (Int.lt_toNat.mp b.isLt)]
        rw [show (fun b : Fin (m_k s).toNat => rhsVec sq t g b) =
            fun b : Fin (m_k s).toNat => rhsVec sq s g b from
          funext fun b => hrhs b (Int.lt_toNat.mp b.isLt)]
    have hudG : ∀ (r j : ℕ), (j : ℤ) < m_k s →
        updatedDG t g r j = updatedDG s g r j := by
      intro r j hj
      unfold updatedDG
      rw [hcol, hfdG]
      by_cases hjc : j = s.col_idx.toNat
      · rw [if_pos hjc, if_pos hjc]
      · rw [if_neg hjc, if_neg hjc]
        exact hdG r j hj
    have husc : ∀ j : ℕ, (j : ℤ) < m_k s →
        updatedScale sq t g j = updatedScale sq s g j := by
      intro j hj
      unfold updatedScale
      rw [hcol, hcs]
      by_cases hjc : j = s.col_idx.toNat
      · rw [if_pos hjc, if_pos hjc]
      · rw [if_neg hjc, if_neg hjc]
        exact hsc j hj
    unfold computeBody
    rw [hiter, if_neg h0, if_neg h0]
    show mixedU sq solve t g i = mixedU sq solve s g i
    unfold mixedU
    rw [hmk]
    congr 1
    apply Finset.sum_congr rfl
    intro j hjmem
    have hj1 : j < (m_k s).toNat := Finset.mem_range.mp hjmem
    have hj2 : (j : ℤ) < m_k s := Int.lt_toNat.mp hj1
    rw [hudG i j hj2, hthe j hj1, husc j hj2]

theorem stale_slots_no_influence_witness :
    (computeBody sqW solve0 s1mod gFive).current_u 0 =
      (computeBody sqW solve0 s1q gFive).current_u 0 :=
  stale_slots_no_influence sqW solve0 s1q s1mod gFive rfl rfl rfl rfl rfl
    (by
      intro a b ha hb
      have hk : m_k s1q = 1 := by decide
      rw [hk] at ha hb
      have ha0 : a = 0 := by omega
      have hb0 : b = 0 := by omega
      subst ha0
      subst hb0
      show (if (0 : ℕ) = 0 ∧ (0 : ℕ) = 0 then s1q.M 0 0 else 99) = s1q.M 0 0
      rw [if_pos ⟨rfl, rfl⟩])
    (by
      intro j hj
      have hk : m_k s1q = 1 := by decide
      rw [hk] at hj
      have hj0 : j = 0 := by omega
      subst hj0
      show (if (0 : ℕ) = 0 then s1q.dF_scale 0 else 77) = s1q.dF_scale 0
      rw [if_pos rfl])
    (by
      intro a j hj
      have hk : m_k s1q = 1 := by decide
      rw [hk] at hj
      have hj0 : j = 0 := by omega
      subst hj0
      show (if (0 : ℕ) = 0 then s1q.prev_dF a 0 else 55) = s1q.prev_dF a 0
      rw [if_pos rfl])
    (by
      intro a j hj
      have hk : m_k s1q = 1 := by decide
      rw [hk] at hj
      have hj0 : j = 0 := by omega
      subst hj0
      show (if (0 : ℕ) = 0 then s1q.prev_dG a 0 else 44) = s1q.prev_dG a 0
      rw [if_pos rfl])
    (Or.inr ⟨by decide, by decide⟩) 0

end AA
